import Mathlib

/-!
Verification of the Van Deemter equation engine
(src/vandeemter_app.py) against its design specification.

The computational core of the program is:

* `van_deemter(u, A, B, C) = A + B / u + C * u`  (lines 47-49),
* `u_values = np.linspace(1, 200, 400)` and the vectorised
  `H_values = van_deemter(u_values, A, B, C)`  (lines 52-53),
* `H_min = np.min(H_values)` and `u_opt = u_values[np.argmin(H_values)]`
  (lines 56-57),
* `H_current = van_deemter(current_u, A, B, C)`  (line 60).

We embed the arithmetic over `ℚ` (the code works with exact real-valued
formulas; rationals make every definition executable).  Python's division
raises `ZeroDivisionError` exactly when the divisor is zero, so the scalar
embedding of `van_deemter` returns `Option ℚ`, with `none` for `u = 0`.
`np.linspace lo hi n` produces `lo + i * ((hi - lo) / (n - 1))` for
`i = 0, …, n-1`; `np.min` is the least element of a non-empty array
(`ValueError`, i.e. `none`, on an empty one) and `np.argmin` is the index
of the first occurrence of that least element.
-/

/-- The Van Deemter plate-height formula `A + B/u + C·u`: the value the
Python expression `A + B / u + C * u` computes whenever `u ≠ 0`. -/
def vanDeemterH (u A B C : ℚ) : ℚ := A + B / u + C * u

/-- Embedding of `van_deemter` (src/vandeemter_app.py lines 47-49) applied to
a scalar: Python's `B / u` raises `ZeroDivisionError` when `u = 0`, and
otherwise the function returns `A + B / u + C * u`. -/
def van_deemter (u A B C : ℚ) : Option ℚ :=
  if u = 0 then none else some (vanDeemterH u A B C)

/-- Embedding of `np.linspace lo hi n`: `n` evenly spaced samples
`lo + i * step` with `step = (hi - lo) / (n - 1)`, for `i = 0, …, n-1`. -/
def linspace (lo hi : ℚ) (n : ℕ) : List ℚ :=
  (List.range n).map (fun i : ℕ => lo + (i : ℚ) * ((hi - lo) / ((n : ℚ) - 1)))

/-- The sampled Van Deemter curve (lines 52-53): the list of pairs
`(u_i, H_i)` with `u_i` from `linspace` and `H_i` the Van Deemter value at
`u_i` (the vectorised `van_deemter(u_values, A, B, C)`). -/
def sampleCurve (lo hi : ℚ) (n : ℕ) (A B C : ℚ) : List (ℚ × ℚ) :=
  (linspace lo hi n).map (fun u => (u, vanDeemterH u A B C))

/-- Embedding of `np.min`: the least element of a list; `none` on the empty
list (where NumPy raises `ValueError`). -/
def npMin : List ℚ → Option ℚ
  | [] => none
  | x :: xs => some (xs.foldl min x)

/-- Embedding of `np.argmin`: the index of the first occurrence of the
least element; `none` on the empty list. -/
def npArgmin (l : List ℚ) : Option ℕ :=
  (npMin l).map (fun m => l.findIdx (fun x => x == m))

/-- Embedding of lines 56-57: `H_min = np.min(H_values)`,
`u_opt = u_values[np.argmin(H_values)]`, reported as the optimal pair
`(u_opt, H_min)`. -/
def findMinimum (curve : List (ℚ × ℚ)) : Option (ℚ × ℚ) :=
  match npMin (curve.map Prod.snd), npArgmin (curve.map Prod.snd) with
  | some m, some i => ((curve.map Prod.fst)[i]?).map (fun u => (u, m))
  | _, _ => none

/-! ### Elementary facts about `npMin` -/

theorem foldl_min_le_init (xs : List ℚ) (x : ℚ) : xs.foldl min x ≤ x := by
  induction xs generalizing x with
  | nil => exact le_refl x
  | cons y ys ih => exact le_trans (ih (min x y)) (min_le_left x y)

theorem foldl_min_le_mem (xs : List ℚ) : ∀ x y : ℚ, y ∈ xs → xs.foldl min x ≤ y := by
  induction xs with
  | nil => intro x y hy; cases hy
  | cons z zs ih =>
    intro x y hy
    rcases List.mem_cons.mp hy with h | h
    · subst h
      exact le_trans (foldl_min_le_init zs (min x y)) (min_le_right x y)
    · exact ih (min x z) y h

theorem foldl_min_mem (xs : List ℚ) (x : ℚ) :
    xs.foldl min x = x ∨ xs.foldl min x ∈ xs := by
  induction xs generalizing x with
  | nil => exact Or.inl rfl
  | cons y ys ih =>
    rcases ih (min x y) with h | h
    · rcases min_choice x y with hm | hm
      · exact Or.inl (h.trans hm)
      · exact Or.inr (List.mem_cons.mpr (Or.inl (h.trans hm)))
    · exact Or.inr (List.mem_cons.mpr (Or.inr h))

theorem npMin_spec (l : List ℚ) (hne : l ≠ []) :
    ∃ m, npMin l = some m ∧ m ∈ l ∧ ∀ y ∈ l, m ≤ y := by
  cases l with
  | nil => exact absurd rfl hne
  | cons x xs =>
    refine ⟨xs.foldl min x, rfl, ?_, ?_⟩
    · rcases foldl_min_mem xs x with h | h
      · exact List.mem_cons.mpr (Or.inl h)
      · exact List.mem_cons.mpr (Or.inr h)
    · intro y hy
      rcases List.mem_cons.mp hy with h | h
      · rw [h]; exact foldl_min_le_init xs x
      · exact foldl_min_le_mem xs x y h

/-! ### Index-level description of `linspace` and `sampleCurve` -/

theorem linspace_length (lo hi : ℚ) (n : ℕ) : (linspace lo hi n).length = n := by
  rw [linspace, List.length_map, List.length_range]

theorem linspace_getElem (lo hi : ℚ) (n i : ℕ) (h : i < (linspace lo hi n).length) :
    (linspace lo hi n)[i] = lo + (i : ℚ) * ((hi - lo) / ((n : ℚ) - 1)) := by
  simp only [linspace, List.getElem_map, List.getElem_range]

theorem sampleCurve_length (lo hi A B C : ℚ) (n : ℕ) :
    (sampleCurve lo hi n A B C).length = n := by
  rw [sampleCurve, List.length_map, linspace_length]

theorem sampleCurve_getElem (lo hi A B C : ℚ) (n i : ℕ)
    (h : i < (sampleCurve lo hi n A B C).length) :
    (sampleCurve lo hi n A B C)[i] =
      (lo + (i : ℚ) * ((hi - lo) / ((n : ℚ) - 1)),
       vanDeemterH (lo + (i : ℚ) * ((hi - lo) / ((n : ℚ) - 1))) A B C) := by
  have hl : i < (linspace lo hi n).length := by
    simpa [sampleCurve] using h
  simp only [sampleCurve, List.getElem_map]
  rw [linspace_getElem lo hi n i hl]

theorem sampleCurve_map_fst (lo hi A B C : ℚ) (n : ℕ) :
    (sampleCurve lo hi n A B C).map Prod.fst = linspace lo hi n := by
  rw [sampleCurve, List.map_map]
  exact List.map_id _

theorem sampleCurve_map_snd (lo hi A B C : ℚ) (n : ℕ) :
    (sampleCurve lo hi n A B C).map Prod.snd =
      (linspace lo hi n).map (fun u => vanDeemterH u A B C) := by
  rw [sampleCurve, List.map_map]
  rfl

theorem step_pos (lo hi : ℚ) (n : ℕ) (hlt : lo < hi) (hn : 2 ≤ n) :
    0 < (hi - lo) / ((n : ℚ) - 1) := by
  have h1 : (2 : ℚ) ≤ (n : ℚ) := by exact_mod_cast hn
  have h2 : (0 : ℚ) < (n : ℚ) - 1 := by linarith
  exact div_pos (by linarith) h2

theorem linspace_lo_le (lo hi : ℚ) (n i : ℕ) (hlt : lo < hi) (hn : 2 ≤ n)
    (h : i < (linspace lo hi n).length) : lo ≤ (linspace lo hi n)[i] := by
  rw [linspace_getElem]
  have hstep := step_pos lo hi n hlt hn
  have hi0 : (0 : ℚ) ≤ (i : ℚ) := Nat.cast_nonneg i
  nlinarith

theorem linspace_strict_mono (lo hi : ℚ) (n : ℕ) (hlt : lo < hi) (hn : 2 ≤ n) :
    (linspace lo hi n).Pairwise (fun a b => a < b) := by
  rw [List.pairwise_iff_getElem]
  intro i j h1 h2 h3
  rw [linspace_getElem, linspace_getElem]
  have hstep := step_pos lo hi n hlt hn
  have hcast : (i : ℚ) < (j : ℚ) := by exact_mod_cast h3
  nlinarith

theorem linspace_last (lo hi : ℚ) (n : ℕ) (hlt : lo < hi) (hn : 2 ≤ n)
    (h : n - 1 < (linspace lo hi n).length) : (linspace lo hi n)[n - 1] = hi := by
  rw [linspace_getElem]
  have h1 : (2 : ℚ) ≤ (n : ℚ) := by exact_mod_cast hn
  have hne : (n : ℚ) - 1 ≠ 0 := by intro hz; nlinarith
  have hone : 1 ≤ n := le_trans (by norm_num) hn
  have hcast : ((n - 1 : ℕ) : ℚ) = (n : ℚ) - 1 := by
    push_cast [Nat.cast_sub hone]
    ring
  rw [hcast]
  field_simp

/-! ### Characterisation of `findMinimum` -/

theorem npArgmin_eq (l : List ℚ) (m : ℚ) (hm : npMin l = some m) :
    npArgmin l = some (l.findIdx (fun x => x == m)) := by
  rw [npArgmin, hm]
  rfl

/-- Whenever the curve is non-empty, `findMinimum` returns the element of the
curve at the first index achieving the least `H`; that `H` is a lower bound
for the whole curve, and no earlier index attains it. -/
theorem findMinimum_spec (curve : List (ℚ × ℚ)) (hne : curve ≠ []) :
    ∃ i, ∃ hil : i < curve.length,
      findMinimum curve = some (curve.get ⟨i, hil⟩) ∧
      (∀ q ∈ curve, (curve.get ⟨i, hil⟩).2 ≤ q.2) ∧
      (∀ j, ∀ hjl : j < curve.length, j < i →
        (curve.get ⟨j, hjl⟩).2 ≠ (curve.get ⟨i, hil⟩).2) := by
  have hHne : curve.map Prod.snd ≠ [] := by
    intro hcon
    exact hne (List.map_eq_nil_iff.mp hcon)
  obtain ⟨m, hmin, hmem, hle⟩ := npMin_spec (curve.map Prod.snd) hHne
  have hargmin := npArgmin_eq (curve.map Prod.snd) m hmin
  have hex : ∃ x ∈ curve.map Prod.snd, (fun x => x == m) x = true :=
    ⟨m, hmem, beq_self_eq_true m⟩
  have hilH : (curve.map Prod.snd).findIdx (fun x => x == m) <
      (curve.map Prod.snd).length :=
    List.findIdx_lt_length_of_exists hex
  have hil : (curve.map Prod.snd).findIdx (fun x => x == m) < curve.length := by
    simpa using hilH
  refine ⟨(curve.map Prod.snd).findIdx (fun x => x == m), hil, ?_, ?_, ?_⟩
  · have hfst : (curve.map Prod.fst)[(curve.map Prod.snd).findIdx
        (fun x => x == m)]? =
        some ((curve.get ⟨(curve.map Prod.snd).findIdx (fun x => x == m),
          hil⟩).1) := by
      rw [List.getElem?_map]
      rw [List.getElem?_eq_getElem hil]
      simp [List.get_eq_getElem]
    have hsnd : m = (curve.get ⟨(curve.map Prod.snd).findIdx
        (fun x => x == m), hil⟩).2 := by
      have hbeq := @List.findIdx_getElem ℚ (fun x => x == m)
        (curve.map Prod.snd) hilH
      have heq := eq_of_beq hbeq
      rw [List.getElem_map] at heq
      simp only [List.get_eq_getElem]
      exact heq.symm
    rw [findMinimum, hmin, hargmin]
    dsimp only
    rw [hfst]
    rw [Option.map_some']
    exact congrArg some (Prod.ext_iff.mpr ⟨rfl, hsnd⟩)
  · intro q hq
    have hq2 : q.2 ∈ curve.map Prod.snd := List.mem_map_of_mem Prod.snd hq
    have := hle q.2 hq2
    have hsnd : (curve.get ⟨(curve.map Prod.snd).findIdx
        (fun x => x == m), hil⟩).2 = m := by
      have hbeq := @List.findIdx_getElem ℚ (fun x => x == m)
        (curve.map Prod.snd) hilH
      have heq := eq_of_beq hbeq
      rw [List.getElem_map] at heq
      simpa [List.get_eq_getElem] using heq
    rw [hsnd]
    exact this
  · intro j hjl hji
    have hjH : j < (curve.map Prod.snd).length := by simpa using hjl
    have hfalse := List.not_of_lt_findIdx hji
    have hne2 : (curve.map Prod.snd)[j] ≠ m := by
      intro hcon
      rw [hcon] at hfalse
      rw [beq_self_eq_true] at hfalse
      cases hfalse
    have hsnd : (curve.get ⟨(curve.map Prod.snd).findIdx
        (fun x => x == m), hil⟩).2 = m := by
      have hbeq := @List.findIdx_getElem ℚ (fun x => x == m)
        (curve.map Prod.snd) hilH
      have heq := eq_of_beq hbeq
      rw [List.getElem_map] at heq
      simpa [List.get_eq_getElem] using heq
    rw [hsnd]
    intro hcon
    apply hne2
    rw [List.getElem_map]
    simpa [List.get_eq_getElem] using hcon

/-! ### Claim theorems -/

/-- C1: for every flow rate u > 0 and coefficients A, B, C ≥ 0, the
evaluation returns exactly H = A + B/u + C·u. -/
theorem C1_evaluate_exact (u A B C : ℚ) (hu : 0 < u)
    (hA : 0 ≤ A) (hB : 0 ≤ B) (hC : 0 ≤ C) :
    van_deemter u A B C = some (A + B / u + C * u) := by
  rw [van_deemter, if_neg (ne_of_gt hu), vanDeemterH]

/-- Witness for C1 at the spec's scenario u = 50, A = 0.5, B = 0.1, C = 0.01. -/
theorem C1_evaluate_exact_witness :
    van_deemter 50 (1/2) (1/10) (1/100) =
      some (1/2 + (1/10) / 50 + (1/100) * 50) :=
  C1_evaluate_exact 50 (1/2) (1/10) (1/100)
    (by norm_num) (by norm_num) (by norm_num) (by norm_num)

/-- C3 counterexample: at u = -1 ≤ 0 (A = 0, B = 1, C = 0) the evaluation
does not fail: it silently returns the value -1, refuting the claim that
every u ≤ 0 is rejected. -/
theorem C3_counterexample :
    van_deemter (-1) 0 1 0 ≠ none ∧ van_deemter (-1) 0 1 0 = some (-1) := by
  constructor
  · rw [van_deemter, if_neg (by norm_num : (-1 : ℚ) ≠ 0)]
    exact Option.some_ne_none _
  · rw [van_deemter, if_neg (by norm_num : (-1 : ℚ) ≠ 0), vanDeemterH]
    norm_num

/-- C3 (amended): the evaluation fails (division by zero) exactly at u = 0;
for every u ≠ 0, negative u included, it returns A + B/u + C·u with no
rejection. -/
theorem C3_amended_evaluate (u A B C : ℚ) :
    (u = 0 → van_deemter u A B C = none) ∧
    (u ≠ 0 → van_deemter u A B C = some (A + B / u + C * u)) := by
  constructor
  · intro h
    rw [van_deemter, if_pos h]
  · intro h
    rw [van_deemter, if_neg h, vanDeemterH]

/-- Witness for the amended C3 at u = -2, A = B = C = 1. -/
theorem C3_amended_evaluate_witness :
    van_deemter (-2) 1 1 1 = some (1 + 1 / (-2) + 1 * (-2)) :=
  (C3_amended_evaluate (-2) 1 1 1).2 (by norm_num)

/-- C6: `findMinimum` applied to the empty curve fails: it returns no value
(the embedded counterpart of the EmptyInputError / NumPy ValueError). -/
theorem C6_findMinimum_empty : findMinimum [] = none := rfl

/-- C2: on a non-empty curve, ordered by strictly increasing u (the Curve
invariant), `findMinimum` returns a pair of the curve whose H is a lower
bound for every H of the curve, and among points sharing the minimal H it
returns the one of smallest u, the first in sample order. -/
theorem C2_findMinimum_min (curve : List (ℚ × ℚ)) (hne : curve ≠ [])
    (hmono : (curve.map Prod.fst).Pairwise (fun a b => a < b)) :
    ∃ p, findMinimum curve = some p ∧ p ∈ curve ∧
      (∀ q ∈ curve, p.2 ≤ q.2) ∧
      (∀ q ∈ curve, q.2 = p.2 → p.1 ≤ q.1) := by
  obtain ⟨i, hil, heq, hmin, hfirst⟩ := findMinimum_spec curve hne
  refine ⟨curve.get ⟨i, hil⟩, heq, List.get_mem curve i hil, hmin, ?_⟩
  intro q hq hq2
  obtain ⟨j, hjl, hqj⟩ := List.mem_iff_getElem.mp hq
  have hqget : curve.get ⟨j, hjl⟩ = q := by
    simpa [List.get_eq_getElem] using hqj
  rcases lt_trichotomy j i with hji | hji | hji
  · exfalso
    apply hfirst j hjl hji
    rw [hqget, hq2]
  · subst hji
    exact le_of_eq (congrArg Prod.fst hqget)
  · have him : i < (curve.map Prod.fst).length := by simpa using hil
    have hjm : j < (curve.map Prod.fst).length := by simpa using hjl
    have hpair := List.pairwise_iff_getElem.mp hmono i j him hjm hji
    have h1 : (curve.map Prod.fst)[i] = (curve.get ⟨i, hil⟩).1 := by
      rw [List.getElem_map]
      simp [List.get_eq_getElem]
    have h2 : (curve.map Prod.fst)[j] = q.1 := by
      rw [List.getElem_map, hqj]
    rw [h1, h2] at hpair
    exact le_of_lt hpair

/-- Witness for C2 on the concrete curve [(1, 3), (2, 2), (3, 2)], where the
minimal H = 2 is attained at both u = 2 and u = 3. -/
theorem C2_findMinimum_min_witness :
    ∃ p, findMinimum [((1 : ℚ), (3 : ℚ)), (2, 2), (3, 2)] = some p ∧
      p ∈ [((1 : ℚ), (3 : ℚ)), (2, 2), (3, 2)] ∧
      (∀ q ∈ [((1 : ℚ), (3 : ℚ)), (2, 2), (3, 2)], p.2 ≤ q.2) ∧
      (∀ q ∈ [((1 : ℚ), (3 : ℚ)), (2, 2), (3, 2)], q.2 = p.2 → p.1 ≤ q.1) :=
  C2_findMinimum_min [((1 : ℚ), (3 : ℚ)), (2, 2), (3, 2)]
    (by simp) (by norm_num [List.pairwise_cons])

/-- C5: for every valid sampling input (u_min > 0, u_max > u_min, n ≥ 2) the
u components of the sampled curve are strictly increasing. -/
theorem C5_sampleCurve_strict_mono (lo hi A B C : ℚ) (n : ℕ)
    (h0 : 0 < lo) (hlt : lo < hi) (hn : 2 ≤ n) :
    ((sampleCurve lo hi n A B C).map Prod.fst).Pairwise (fun a b => a < b) := by
  rw [sampleCurve_map_fst]
  exact linspace_strict_mono lo hi n hlt hn

/-- Witness for C5 on the domain [1, 2] with 3 samples and A = B = C = 0. -/
theorem C5_sampleCurve_strict_mono_witness :
    ((sampleCurve 1 2 3 0 0 0).map Prod.fst).Pairwise (fun a b => a < b) :=
  C5_sampleCurve_strict_mono 1 2 0 0 0 3 (by norm_num) (by norm_num) (by norm_num)

theorem linspace_mem_lo_le (lo hi : ℚ) (n : ℕ) (hlt : lo < hi) (hn : 2 ≤ n)
    (u : ℚ) (hu : u ∈ linspace lo hi n) : lo ≤ u := by
  obtain ⟨k, hk, hku⟩ := List.mem_iff_getElem.mp hu
  rw [← hku]
  exact linspace_lo_le lo hi n k hlt hn hk

/-- C4: for u_min > 0, u_max > u_min and n ≥ 2 the sampled curve has exactly
n points, its first u is u_min, its last u is u_max, consecutive u values
differ by the constant step (u_max - u_min)/(n - 1), and every point's H is
exactly the evaluation of the Van Deemter function at its u. -/
theorem C4_sampleCurve_shape (lo hi A B C : ℚ) (n : ℕ)
    (h0 : 0 < lo) (hlt : lo < hi) (hn : 2 ≤ n) :
    (sampleCurve lo hi n A B C).length = n ∧
    ((sampleCurve lo hi n A B C).map Prod.fst).head? = some lo ∧
    ((sampleCurve lo hi n A B C).map Prod.fst).getLast? = some hi ∧
    (∀ i : ℕ, i + 1 < n →
      ((sampleCurve lo hi n A B C).map Prod.fst).getD (i + 1) 0 -
        ((sampleCurve lo hi n A B C).map Prod.fst).getD i 0 =
        (hi - lo) / ((n : ℚ) - 1)) ∧
    (∀ p ∈ sampleCurve lo hi n A B C, van_deemter p.1 A B C = some p.2) := by
  have hlen := linspace_length lo hi n
  have hpos : 0 < n := lt_of_lt_of_le (by norm_num) hn
  refine ⟨sampleCurve_length lo hi A B C n, ?_, ?_, ?_, ?_⟩
  · rw [sampleCurve_map_fst, List.head?_eq_getElem?]
    have h0n : 0 < (linspace lo hi n).length := by rw [hlen]; exact hpos
    rw [List.getElem?_eq_getElem h0n, linspace_getElem]
    norm_num
  · rw [sampleCurve_map_fst, List.getLast?_eq_getElem?, hlen]
    have hn1 : n - 1 < (linspace lo hi n).length := by
      rw [hlen]
      omega
    rw [List.getElem?_eq_getElem hn1, linspace_last lo hi n hlt hn hn1]
  · intro i hi1
    rw [sampleCurve_map_fst]
    have hilt : i < (linspace lo hi n).length := by rw [hlen]; omega
    have hi1lt : i + 1 < (linspace lo hi n).length := by rw [hlen]; omega
    rw [List.getD_eq_getElem?_getD, List.getD_eq_getElem?_getD,
      List.getElem?_eq_getElem hilt, List.getElem?_eq_getElem hi1lt,
      linspace_getElem lo hi n i hilt, linspace_getElem lo hi n (i + 1) hi1lt]
    simp only [Option.getD_some]
    push_cast
    ring
  · intro p hp
    obtain ⟨u, hu, hup⟩ := List.mem_map.mp hp
    have hlo : lo ≤ u := linspace_mem_lo_le lo hi n hlt hn u hu
    have hu0 : u ≠ 0 := by
      intro hz
      rw [hz] at hlo
      linarith
    rw [← hup]
    rw [van_deemter, if_neg hu0]

/-- Witness for C4 on the domain [1, 2] with 2 samples and A = B = C = 1. -/
theorem C4_sampleCurve_shape_witness :
    (sampleCurve 1 2 2 1 1 1).length = 2 ∧
    ((sampleCurve 1 2 2 1 1 1).map Prod.fst).head? = some 1 ∧
    ((sampleCurve 1 2 2 1 1 1).map Prod.fst).getLast? = some 2 ∧
    (∀ i : ℕ, i + 1 < 2 →
      ((sampleCurve 1 2 2 1 1 1).map Prod.fst).getD (i + 1) 0 -
        ((sampleCurve 1 2 2 1 1 1).map Prod.fst).getD i 0 =
        (2 - 1) / ((2 : ℚ) - 1)) ∧
    (∀ p ∈ sampleCurve 1 2 2 1 1 1, van_deemter p.1 1 1 1 = some p.2) :=
  C4_sampleCurve_shape 1 2 1 1 1 2 (by norm_num) (by norm_num) (by norm_num)

theorem sampleCurve_last (lo hi A B C : ℚ) (n : ℕ) (hlt : lo < hi) (hn : 2 ≤ n)
    (h : n - 1 < (sampleCurve lo hi n A B C).length) :
    (sampleCurve lo hi n A B C)[n - 1] = (hi, vanDeemterH hi A B C) := by
  have hl : n - 1 < (linspace lo hi n).length := by
    simpa [sampleCurve] using h
  simp only [sampleCurve, List.getElem_map]
  rw [linspace_last lo hi n hlt hn hl]

theorem vanDeemterH_strict_anti (A B u v : ℚ) (hB : 0 < B)
    (hu : 0 < u) (huv : u < v) :
    vanDeemterH v A B 0 < vanDeemterH u A B 0 := by
  rw [vanDeemterH, vanDeemterH]
  have hdiv := div_lt_div_of_pos_left hB hu huv
  simp only [zero_mul, add_zero]
  linarith

/-- C7: with C = 0 and B > 0 the plate height is strictly decreasing in u on
the positive axis, and the sampled minimum of any curve drawn from such
coefficients is the point at u = u_max. -/
theorem C7_C_zero_decreasing (A B lo hi : ℚ) (n : ℕ)
    (hA : 0 ≤ A) (hB : 0 < B) (h0 : 0 < lo) (hlt : lo < hi) (hn : 2 ≤ n) :
    (∀ u v : ℚ, 0 < u → u < v → vanDeemterH v A B 0 < vanDeemterH u A B 0) ∧
    findMinimum (sampleCurve lo hi n A B 0) = some (hi, vanDeemterH hi A B 0) := by
  constructor
  · intro u v hu huv
    exact vanDeemterH_strict_anti A B u v hB hu huv
  · have hlen : (sampleCurve lo hi n A B 0).length = n :=
      sampleCurve_length lo hi A B 0 n
    have hne : sampleCurve lo hi n A B 0 ≠ [] := by
      intro hcon
      have hz := congrArg List.length hcon
      rw [hlen] at hz
      simp at hz
      omega
    obtain ⟨i, hil, heq, hmin, hfirst⟩ := findMinimum_spec (sampleCurve lo hi n A B 0) hne
    have hdec : ∀ j k : ℕ, ∀ hjl : j < (sampleCurve lo hi n A B 0).length,
        ∀ hkl : k < (sampleCurve lo hi n A B 0).length, j < k →
        ((sampleCurve lo hi n A B 0).get ⟨k, hkl⟩).2 <
          ((sampleCurve lo hi n A B 0).get ⟨j, hjl⟩).2 := by
      intro j k hjl hkl hjk
      simp only [List.get_eq_getElem]
      rw [sampleCurve_getElem lo hi A B 0 n j hjl,
        sampleCurve_getElem lo hi A B 0 n k hkl]
      have hstep := step_pos lo hi n hlt hn
      have hcast : (j : ℚ) < (k : ℚ) := by exact_mod_cast hjk
      have hj0 : (0 : ℚ) ≤ (j : ℚ) := Nat.cast_nonneg j
      apply vanDeemterH_strict_anti A B _ _ hB
      · nlinarith
      · nlinarith
    have hn1 : n - 1 < (sampleCurve lo hi n A B 0).length := by
      rw [hlen]
      omega
    have hiN : i = n - 1 := by
      by_contra hcon
      have hilt : i < n - 1 := by
        have : i < n := by rw [← hlen]; exact hil
        omega
      have hq := hmin ((sampleCurve lo hi n A B 0).get ⟨n - 1, hn1⟩)
        (List.get_mem _ _ _)
      have hlt2 := hdec i (n - 1) hil hn1 hilt
      linarith
    subst hiN
    rw [heq]
    have hlast := sampleCurve_last lo hi A B 0 n hlt hn hn1
    simp only [List.get_eq_getElem]
    rw [hlast]

/-- Witness for C7 at A = 0, B = 1 on the domain [1, 2] with 2 samples. -/
theorem C7_C_zero_decreasing_witness :
    (∀ u v : ℚ, 0 < u → u < v → vanDeemterH v 0 1 0 < vanDeemterH u 0 1 0) ∧
    findMinimum (sampleCurve 1 2 2 0 1 0) = some (2, vanDeemterH 2 0 1 0) :=
  C7_C_zero_decreasing 0 1 1 2 2 (by norm_num) (by norm_num) (by norm_num)
    (by norm_num) (by norm_num)

/-- C9: whenever the program's minimisation of the sampled curve returns a
pair (u_opt, H_min), that pair is an element of the curve and H_min is
exactly the evaluation of the Van Deemter function at u_opt. -/
theorem C9_optimal_on_curve (lo hi A B C : ℚ) (n : ℕ)
    (h0 : 0 < lo) (hlt : lo < hi) (hn : 2 ≤ n) (p : ℚ × ℚ)
    (hp : findMinimum (sampleCurve lo hi n A B C) = some p) :
    p ∈ sampleCurve lo hi n A B C ∧ van_deemter p.1 A B C = some p.2 := by
  have hlen : (sampleCurve lo hi n A B C).length = n :=
    sampleCurve_length lo hi A B C n
  have hne : sampleCurve lo hi n A B C ≠ [] := by
    intro hcon
    have hz := congrArg List.length hcon
    rw [hlen] at hz
    simp at hz
    omega
  obtain ⟨i, hil, heq, hmin, hfirst⟩ := findMinimum_spec (sampleCurve lo hi n A B C) hne
  have hpe : p = (sampleCurve lo hi n A B C).get ⟨i, hil⟩ :=
    Option.some.inj (hp.symm.trans heq)
  have hmem : p ∈ sampleCurve lo hi n A B C := by
    rw [hpe]
    exact List.get_mem _ _ _
  refine ⟨hmem, ?_⟩
  obtain ⟨u, hu, hup⟩ := List.mem_map.mp hmem
  have hlo : lo ≤ u := linspace_mem_lo_le lo hi n hlt hn u hu
  have hu0 : u ≠ 0 := by
    intro hz
    rw [hz] at hlo
    linarith
  rw [← hup]
  rw [van_deemter, if_neg hu0]

/-- Witness for C9: on the domain [1, 2] with 2 samples and A = B = C = 1 the
minimisation returns (1, 3), which lies on the curve and evaluates
consistently. -/
theorem C9_optimal_on_curve_witness :
    ((1 : ℚ), (3 : ℚ)) ∈ sampleCurve 1 2 2 1 1 1 ∧
      van_deemter 1 1 1 1 = some 3 :=
  C9_optimal_on_curve 1 2 1 1 1 2 (by norm_num) (by norm_num) (by norm_num)
    (1, 3)
    (by norm_num [findMinimum, sampleCurve, linspace, List.range_succ,
      vanDeemterH, npMin, npArgmin, List.findIdx_cons, min_def])

/-- C8: for every input the control surface can supply (A ∈ [0,2], B ∈ [0,1],
C ∈ [0,0.1], integer u ∈ [1,200], domain [1,200] with 400 samples) the whole
computation is total: every sampled u is at least 1, the evaluation succeeds
at every sample and at the selected flow rate, and the minimisation acts on a
non-empty curve and returns a value. -/
theorem C8_total_on_intended_domain (A B C : ℚ) (u : ℤ)
    (hA0 : 0 ≤ A) (hA2 : A ≤ 2) (hB0 : 0 ≤ B) (hB1 : B ≤ 1)
    (hC0 : 0 ≤ C) (hC1 : C ≤ 1/10) (hu1 : 1 ≤ u) (hu200 : u ≤ 200) :
    (∀ x ∈ linspace 1 200 400, 1 ≤ x) ∧
    (∀ x ∈ linspace 1 200 400, van_deemter x A B C = some (vanDeemterH x A B C)) ∧
    van_deemter (u : ℚ) A B C = some (vanDeemterH (u : ℚ) A B C) ∧
    (∃ p, findMinimum (sampleCurve 1 200 400 A B C) = some p) := by
  have hdom : ∀ x ∈ linspace 1 200 400, (1 : ℚ) ≤ x := by
    intro x hx
    exact linspace_mem_lo_le 1 200 400 (by norm_num) (by norm_num) x hx
  refine ⟨hdom, ?_, ?_, ?_⟩
  · intro x hx
    have h1 := hdom x hx
    rw [van_deemter, if_neg (by intro hz; rw [hz] at h1; linarith)]
  · have hcast : (1 : ℚ) ≤ (u : ℚ) := by exact_mod_cast hu1
    rw [van_deemter, if_neg (by intro hz; rw [hz] at hcast; linarith)]
  · have hlen : (sampleCurve 1 200 400 A B C).length = 400 :=
      sampleCurve_length 1 200 A B C 400
    have hne : sampleCurve 1 200 400 A B C ≠ [] := by
      intro hcon
      have hz := congrArg List.length hcon
      rw [hlen] at hz
      simp at hz
    obtain ⟨i, hil, heq, hmin, hfirst⟩ :=
      findMinimum_spec (sampleCurve 1 200 400 A B C) hne
    exact ⟨_, heq⟩

/-- Witness for C8 at the app's default parameters A = 0.5, B = 0.1,
C = 0.01, u = 50. -/
theorem C8_total_on_intended_domain_witness :
    (∀ x ∈ linspace 1 200 400, 1 ≤ x) ∧
    (∀ x ∈ linspace 1 200 400,
      van_deemter x (1/2) (1/10) (1/100) =
        some (vanDeemterH x (1/2) (1/10) (1/100))) ∧
    van_deemter ((50 : ℤ) : ℚ) (1/2) (1/10) (1/100) =
      some (vanDeemterH ((50 : ℤ) : ℚ) (1/2) (1/10) (1/100)) ∧
    (∃ p, findMinimum (sampleCurve 1 200 400 (1/2) (1/10) (1/100)) = some p) :=
  C8_total_on_intended_domain (1/2) (1/10) (1/100) 50 (by norm_num)
    (by norm_num) (by norm_num) (by norm_num) (by norm_num) (by norm_num)
    (by norm_num) (by norm_num)

theorem vdH_above_selected (u : ℚ) (hu : 0 < u) (hcase : u < 3 ∨ 10/3 < u) :
    (19/300 : ℚ) < vanDeemterH u 0 (1/10) (1/100) := by
  rw [vanDeemterH]
  have key : (0 + (1/10)/u + (1/100)*u) - 19/300 =
      (u - 3) * (3*u - 10) / (300*u) := by
    field_simp
    ring
  have hnum : 0 < (u - 3) * (3*u - 10) := by
    rcases hcase with h | h
    · nlinarith
    · nlinarith
  have hden : (0 : ℚ) < 300*u := by linarith
  have hpos := div_pos hnum hden
  linarith [key, hpos]

theorem linspace_app_outside (x : ℚ) (hx : x ∈ linspace 1 200 400) :
    0 < x ∧ (x < 3 ∨ 10/3 < x) := by
  obtain ⟨k, hk, hkx⟩ := List.mem_iff_getElem.mp hx
  rw [linspace_getElem] at hkx
  have hk400 : k < 400 := by
    have := hk
    rw [linspace_length] at this
    exact this
  norm_num at hkx
  rcases le_or_lt k 4 with hc | hc
  · have hcast : (k : ℚ) ≤ 4 := by exact_mod_cast hc
    have hk0 : (0 : ℚ) ≤ (k : ℚ) := Nat.cast_nonneg k
    constructor
    · linarith [hkx]
    · left
      rw [← hkx]
      linarith
  · have hcast : (5 : ℚ) ≤ (k : ℚ) := by exact_mod_cast hc
    constructor
    · linarith [hkx]
    · right
      rw [← hkx]
      linarith

/-- C10: there are admissible coefficients and an integer selected flow rate
whose plate height is strictly below the sampled minimum: with A = 0,
B = 0.1, C = 0.01 and selected u = 3, the selected plate height is 19/300
while the minimum reported over the 400-sample curve on [1, 200] is strictly
larger (the nearest samples are 1195/399 and 1394/399, on either side of the
true optimum √10). -/
theorem C10_selected_beats_sampled_min :
    ∃ p, findMinimum (sampleCurve 1 200 400 0 (1/10) (1/100)) = some p ∧
      van_deemter 3 0 (1/10) (1/100) = some (19/300) ∧
      (19/300 : ℚ) < p.2 := by
  have hlen : (sampleCurve 1 200 400 0 (1/10) (1/100)).length = 400 :=
    sampleCurve_length 1 200 0 (1/10) (1/100) 400
  have hne : sampleCurve 1 200 400 0 (1/10) (1/100) ≠ [] := by
    intro hcon
    have hz := congrArg List.length hcon
    rw [hlen] at hz
    simp at hz
  obtain ⟨i, hil, heq, hmin, hfirst⟩ :=
    findMinimum_spec (sampleCurve 1 200 400 0 (1/10) (1/100)) hne
  refine ⟨_, heq, ?_, ?_⟩
  · rw [van_deemter, if_neg (by norm_num : (3 : ℚ) ≠ 0), vanDeemterH]
    norm_num
  · have hmem : (sampleCurve 1 200 400 0 (1/10) (1/100)).get ⟨i, hil⟩ ∈
        sampleCurve 1 200 400 0 (1/10) (1/100) := List.get_mem _ _ _
    obtain ⟨x, hx, hxp⟩ := List.mem_map.mp hmem
    obtain ⟨hx0, hxor⟩ := linspace_app_outside x hx
    have hlt := vdH_above_selected x hx0 hxor
    rw [← hxp]
    exact hlt
